import Mathlib

/-!
Shallow embedding of the distance functions defined in
`src/python/math/lib/__init__.py` of the `bob` repository.

Vectors and histograms are modelled as `List ℚ` (transient, caller-owned
numeric sequences).  `math.sqrt` is modelled by `Real.sqrt`, so the two
functions that take a square root return `ℝ`.

* `euklidean_distance x1 x2` embeds
  `math.sqrt(((x1-x2)*(x1-x2)).sum())`: elementwise difference, elementwise
  square, sum, square root.
* `normalized_scalar_product x1 x2` embeds
  `1. - numpy.dot(x1, x2) / math.sqrt(numpy.dot(x1,x1) * numpy.dot(x2,x2))`.
  When the denominator is zero the Python code divides by zero and does not
  produce an ordinary finite number; this failure is modelled by `Option`,
  with `none` exactly when `math.sqrt(numpy.dot(x1,x1)*numpy.dot(x2,x2))`
  is zero, which (since `dot x x` is a sum of squares, hence non-negative)
  happens exactly when `dot x1 x1 * dot x2 x2 = 0`.
* `chi_square h1 h2` embeds the loop
  `for i in range(h1.shape()[0]): if h1[i] != h2[i]: d += (h1[i]-h2[i])**2/(h1[i]+h2[i])`
  as a left fold over `List.range h1.length`, reading elements with
  `List.getD · 0`.  Rational division is total (`q / 0 = 0`) where Python
  would raise `ZeroDivisionError`; the variant `chi_squareChecked` models
  the raising semantics with `Option`, returning `none` exactly when a
  division by zero is reached.
-/

set_option linter.unusedVariables false

namespace BobMath

/-- `numpy.dot x1 x2`: sum of the elementwise products. -/
def dot (x1 x2 : List ℚ) : ℚ :=
  (List.zipWith (· * ·) x1 x2).sum

/-- `euklidean_distance` from the source: `math.sqrt(((x1-x2)*(x1-x2)).sum())`. -/
noncomputable def euklidean_distance (x1 x2 : List ℚ) : ℝ :=
  Real.sqrt (((List.zipWith (fun a b => (a - b) * (a - b)) x1 x2).sum : ℚ))

/-- `normalized_scalar_product` from the source:
`1. - numpy.dot(x1, x2) / math.sqrt(numpy.dot(x1,x1) * numpy.dot(x2,x2))`,
with the zero-denominator failure modelled by `none`. -/
noncomputable def normalized_scalar_product (x1 x2 : List ℚ) : Option ℝ :=
  if dot x1 x1 * dot x2 x2 = 0 then none
  else some (1 - (dot x1 x2 : ℝ) / Real.sqrt ((dot x1 x1 * dot x2 x2 : ℚ)))

/-- `chi_square` from the source: the guarded accumulation loop, with the
total rational division of Lean standing in for Python division. -/
def chi_square (h1 h2 : List ℚ) : ℚ :=
  (List.range h1.length).foldl
    (fun d i =>
      if h1.getD i 0 ≠ h2.getD i 0 then
        d + (h1.getD i 0 - h2.getD i 0) ^ 2 / (h1.getD i 0 + h2.getD i 0)
      else d)
    0

/-- `chi_square` with Python's raising division: the fold aborts with `none`
as soon as a division by zero is attempted. -/
def chi_squareChecked (h1 h2 : List ℚ) : Option ℚ :=
  (List.range h1.length).foldl
    (fun acc i =>
      acc.bind fun d =>
        if h1.getD i 0 ≠ h2.getD i 0 then
          if h1.getD i 0 + h2.getD i 0 = 0 then none
          else some (d + (h1.getD i 0 - h2.getD i 0) ^ 2 / (h1.getD i 0 + h2.getD i 0))
        else some d)
    (some 0)

@[simp] lemma dot_nil_left (y : List ℚ) : dot [] y = 0 := rfl

@[simp] lemma dot_nil_right (x : List ℚ) : dot x [] = 0 := by
  simp [dot]

@[simp] lemma dot_cons (a b : ℚ) (x y : List ℚ) :
    dot (a :: x) (b :: y) = a * b + dot x y := by
  simp [dot]

lemma dot_comm (x y : List ℚ) : dot x y = dot y x := by
  induction x generalizing y with
  | nil => cases y <;> simp
  | cons a x ih => cases y with
    | nil => simp
    | cons b y => simp [ih, mul_comm]

lemma dot_self_nonneg (x : List ℚ) : 0 ≤ dot x x := by
  induction x with
  | nil => simp
  | cons a x ih => simpa using add_nonneg (mul_self_nonneg a) ih

lemma dot_eq_sum (x y : List ℚ) :
    dot x y = ∑ i ∈ Finset.range x.length, x.getD i 0 * y.getD i 0 := by
  induction x generalizing y with
  | nil => simp
  | cons a x ih =>
    cases y with
    | nil => simp [Finset.sum_range_succ']
    | cons b y => simp [Finset.sum_range_succ', ih, add_comm]

lemma sumSqDiff_eq_sum (x y : List ℚ) (h : x.length = y.length) :
    (List.zipWith (fun a b => (a - b) * (a - b)) x y).sum
      = ∑ i ∈ Finset.range x.length, (x.getD i 0 - y.getD i 0) ^ 2 := by
  induction x generalizing y with
  | nil => simp
  | cons a x ih =>
    cases y with
    | nil => simp at h
    | cons b y =>
      have h' : x.length = y.length := by simpa using h
      simp [Finset.sum_range_succ', ih y h', add_comm, pow_two]

lemma list_range_map_sum (f : ℕ → ℚ) (n : ℕ) :
    ((List.range n).map f).sum = ∑ i ∈ Finset.range n, f i := by
  induction n with
  | zero => simp
  | succ n ih => simp [List.range_succ, Finset.sum_range_succ, ih]

lemma foldl_guard_eq_sum (p : ℕ → Prop) [DecidablePred p] (t : ℕ → ℚ)
    (l : List ℕ) (c : ℚ) :
    l.foldl (fun d i => if p i then d + t i else d) c
      = c + (l.map (fun i => if p i then t i else 0)).sum := by
  induction l generalizing c with
  | nil => simp
  | cons i l ih => by_cases hp : p i <;> simp [hp, ih, add_assoc]

lemma chi_square_eq_sum (h1 h2 : List ℚ) :
    chi_square h1 h2
      = ∑ i ∈ Finset.range h1.length,
          if h1.getD i 0 ≠ h2.getD i 0 then
            (h1.getD i 0 - h2.getD i 0) ^ 2 / (h1.getD i 0 + h2.getD i 0)
          else 0 := by
  rw [chi_square,
    foldl_guard_eq_sum (fun i => h1.getD i 0 ≠ h2.getD i 0)
      (fun i => (h1.getD i 0 - h2.getD i 0) ^ 2 / (h1.getD i 0 + h2.getD i 0)),
    list_range_map_sum, zero_add]

lemma getD_nonneg {h : List ℚ} (hn : ∀ q ∈ h, 0 ≤ q) (i : ℕ) :
    0 ≤ h.getD i 0 := by
  by_cases hi : i < h.length
  · rw [List.getD_eq_getElem _ _ hi]
    exact hn _ (List.getElem_mem hi)
  · rw [List.getD_eq_default _ _ (le_of_not_lt hi)]

lemma add_ne_zero_of_nonneg_of_ne {a b : ℚ} (ha : 0 ≤ a) (hb : 0 ≤ b)
    (hab : a ≠ b) : a + b ≠ 0 := by
  intro h
  have ha0 : a = 0 := le_antisymm (by linarith) ha
  have hb0 : b = 0 := le_antisymm (by linarith) hb
  exact hab (ha0.trans hb0.symm)

lemma chi_foldl_checked (h1 h2 : List ℚ) (l : List ℕ) (c : ℚ)
    (hd : ∀ i ∈ l, h1.getD i 0 ≠ h2.getD i 0 → h1.getD i 0 + h2.getD i 0 ≠ 0) :
    l.foldl
      (fun acc i =>
        acc.bind fun d =>
          if h1.getD i 0 ≠ h2.getD i 0 then
            if h1.getD i 0 + h2.getD i 0 = 0 then none
            else some (d + (h1.getD i 0 - h2.getD i 0) ^ 2 / (h1.getD i 0 + h2.getD i 0))
          else some d)
      (some c)
      = some (l.foldl
          (fun d i =>
            if h1.getD i 0 ≠ h2.getD i 0 then
              d + (h1.getD i 0 - h2.getD i 0) ^ 2 / (h1.getD i 0 + h2.getD i 0)
            else d)
          c) := by
  induction l generalizing c with
  | nil => simp
  | cons i l ih =>
    have hi := hd i (List.mem_cons_self i l)
    have htail : ∀ j ∈ l, h1.getD j 0 ≠ h2.getD j 0 → h1.getD j 0 + h2.getD j 0 ≠ 0 :=
      fun j hj => hd j (List.mem_cons_of_mem _ hj)
    by_cases hg : h1.getD i 0 ≠ h2.getD i 0
    · simp only [List.foldl_cons, Option.some_bind, if_pos hg, if_neg (hi hg)]
      exact ih _ htail
    · simp only [List.foldl_cons, Option.some_bind, if_neg hg]
      exact ih _ htail

lemma dot_sq_le (x y : List ℚ) (h : x.length = y.length) :
    dot x y ^ 2 ≤ dot x x * dot y y := by
  rw [dot_eq_sum x y, dot_eq_sum x x, dot_eq_sum y y, ← h]
  have := Finset.sum_mul_sq_le_sq_mul_sq (Finset.range x.length)
    (fun i => x.getD i 0) (fun i => y.getD i 0)
  simpa [pow_two] using this

lemma zipWith_sub_self_sum (a : List ℚ) :
    (List.zipWith (fun x y => (x - y) * (x - y)) a a).sum = 0 := by
  induction a with
  | nil => simp
  | cons q a ih => simp [ih]

/-- Claim C1: for equal-length vectors, `euklidean_distance x1 x2` is the
square root of the sum over all indices of the squared componentwise
differences. -/
theorem euklidean_distance_spec (x1 x2 : List ℚ) (hlen : x1.length = x2.length) :
    euklidean_distance x1 x2
      = Real.sqrt ((∑ i ∈ Finset.range x1.length,
          (x1.getD i 0 - x2.getD i 0) ^ 2 : ℚ)) := by
  rw [euklidean_distance, sumSqDiff_eq_sum x1 x2 hlen]

/-- Witness for claim C1 at `x1 = [1, 2]`, `x2 = [3, 5]`. -/
theorem euklidean_distance_spec_witness :
    euklidean_distance [1, 2] [3, 5]
      = Real.sqrt ((∑ i ∈ Finset.range ([(1:ℚ), 2].length),
          ([(1:ℚ), 2].getD i 0 - [(3:ℚ), 5].getD i 0) ^ 2 : ℚ)) :=
  euklidean_distance_spec [1, 2] [3, 5] rfl

/-- Claim C2: for equal-length vectors of nonzero norm,
`normalized_scalar_product x1 x2` returns `1 - dot(x1,x2) / sqrt(dot(x1,x1) * dot(x2,x2))`,
i.e. one minus the cosine of the angle between the vectors. -/
theorem normalized_scalar_product_spec (x1 x2 : List ℚ)
    (hlen : x1.length = x2.length)
    (h1 : dot x1 x1 ≠ 0) (h2 : dot x2 x2 ≠ 0) :
    normalized_scalar_product x1 x2
      = some (1 - ((∑ i ∈ Finset.range x1.length,
            x1.getD i 0 * x2.getD i 0 : ℚ) : ℝ) /
          Real.sqrt (((∑ i ∈ Finset.range x1.length, x1.getD i 0 * x1.getD i 0) *
            ∑ i ∈ Finset.range x2.length, x2.getD i 0 * x2.getD i 0 : ℚ))) := by
  rw [normalized_scalar_product, if_neg (mul_ne_zero h1 h2), dot_eq_sum x1 x2,
    dot_eq_sum x1 x1, dot_eq_sum x2 x2]

/-- Witness for claim C2 at `x1 = [1, 0]`, `x2 = [1, 1]`. -/
theorem normalized_scalar_product_spec_witness :
    normalized_scalar_product [1, 0] [1, 1]
      = some (1 - ((∑ i ∈ Finset.range ([(1:ℚ), 0].length),
            [(1:ℚ), 0].getD i 0 * [(1:ℚ), 1].getD i 0 : ℚ) : ℝ) /
          Real.sqrt (((∑ i ∈ Finset.range ([(1:ℚ), 0].length),
              [(1:ℚ), 0].getD i 0 * [(1:ℚ), 0].getD i 0) *
            ∑ i ∈ Finset.range ([(1:ℚ), 1].length),
              [(1:ℚ), 1].getD i 0 * [(1:ℚ), 1].getD i 0 : ℚ))) :=
  normalized_scalar_product_spec [1, 0] [1, 1] rfl (by norm_num [dot]) (by norm_num [dot])

/-- Claim C3: for same-length histograms, `chi_square h1 h2` is the sum over
the indices where the histograms differ of `(h1[i]-h2[i])^2 / (h1[i]+h2[i])`;
indices where they agree contribute nothing. -/
theorem chi_square_spec (h1 h2 : List ℚ) (hlen : h1.length = h2.length)
    (hn1 : ∀ q ∈ h1, 0 ≤ q) (hn2 : ∀ q ∈ h2, 0 ≤ q) :
    chi_square h1 h2
      = ∑ i ∈ Finset.range h1.length,
          if h1.getD i 0 ≠ h2.getD i 0 then
            (h1.getD i 0 - h2.getD i 0) ^ 2 / (h1.getD i 0 + h2.getD i 0)
          else 0 :=
  chi_square_eq_sum h1 h2

/-- Witness for claim C3 at `h1 = [1, 2]`, `h2 = [1, 3]`. -/
theorem chi_square_spec_witness :
    chi_square [1, 2] [1, 3]
      = ∑ i ∈ Finset.range ([(1:ℚ), 2].length),
          if [(1:ℚ), 2].getD i 0 ≠ [(1:ℚ), 3].getD i 0 then
            ([(1:ℚ), 2].getD i 0 - [(1:ℚ), 3].getD i 0) ^ 2 /
              ([(1:ℚ), 2].getD i 0 + [(1:ℚ), 3].getD i 0)
          else 0 :=
  chi_square_spec [1, 2] [1, 3] rfl (by decide) (by decide)

/-- Claim C4: for same-length histograms with non-negative entries, the
division in `chi_square` never sees a zero divisor: the run with Python's
raising division (`chi_squareChecked`) succeeds and agrees with `chi_square`. -/
theorem chi_square_div_safe (h1 h2 : List ℚ) (hlen : h1.length = h2.length)
    (hn1 : ∀ q ∈ h1, 0 ≤ q) (hn2 : ∀ q ∈ h2, 0 ≤ q) :
    chi_squareChecked h1 h2 = some (chi_square h1 h2) := by
  rw [chi_squareChecked, chi_square]
  exact chi_foldl_checked h1 h2 _ 0 fun i _ hne =>
    add_ne_zero_of_nonneg_of_ne (getD_nonneg hn1 i) (getD_nonneg hn2 i) hne

/-- Witness for claim C4 at `h1 = [0, 2]`, `h2 = [0, 1]`. -/
theorem chi_square_div_safe_witness :
    chi_squareChecked [0, 2] [0, 1] = some (chi_square [0, 2] [0, 1]) :=
  chi_square_div_safe [0, 2] [0, 1] rfl (by decide) (by decide)

/-- Claim C5: when either equal-length vector has zero norm, the denominator
`sqrt(dot(x1,x1) * dot(x2,x2))` is zero and `normalized_scalar_product`
does not produce an ordinary finite distance (modelled as `none`). -/
theorem normalized_scalar_product_zero_norm (x1 x2 : List ℚ)
    (hlen : x1.length = x2.length)
    (h : dot x1 x1 = 0 ∨ dot x2 x2 = 0) :
    Real.sqrt ((dot x1 x1 * dot x2 x2 : ℚ)) = 0 ∧
      normalized_scalar_product x1 x2 = none := by
  have hz : dot x1 x1 * dot x2 x2 = 0 := by
    rcases h with h | h
    · exact mul_eq_zero_of_left h _
    · exact mul_eq_zero_of_right _ h
  refine ⟨?_, ?_⟩
  · rw [hz]
    simp
  · rw [normalized_scalar_product, if_pos hz]

/-- Witness for claim C5 at `x1 = [0]`, `x2 = [1]`. -/
theorem normalized_scalar_product_zero_norm_witness :
    Real.sqrt ((dot [0] [0] * dot [1] [1] : ℚ)) = 0 ∧
      normalized_scalar_product [0] [1] = none :=
  normalized_scalar_product_zero_norm [0] [1] rfl (Or.inl (by norm_num [dot]))

/-- Claim C6: `euklidean_distance` and `normalized_scalar_product` are both
symmetric in their two arguments. -/
theorem distances_symm (x1 x2 : List ℚ) (hlen : x1.length = x2.length) :
    euklidean_distance x1 x2 = euklidean_distance x2 x1 ∧
      (dot x1 x1 ≠ 0 → dot x2 x2 ≠ 0 →
        normalized_scalar_product x1 x2 = normalized_scalar_product x2 x1) := by
  refine ⟨?_, fun h1 h2 => ?_⟩
  · rw [euklidean_distance, euklidean_distance,
      List.zipWith_comm_of_comm _ (fun a b => by ring) x1 x2]
  · rw [normalized_scalar_product, normalized_scalar_product,
      dot_comm x1 x2, mul_comm (dot x1 x1) (dot x2 x2)]

/-- Witness for claim C6 at `x1 = [1, 2]`, `x2 = [3, 4]`. -/
theorem distances_symm_witness :
    euklidean_distance [1, 2] [3, 4] = euklidean_distance [3, 4] [1, 2] ∧
      normalized_scalar_product [1, 2] [3, 4]
        = normalized_scalar_product [3, 4] [1, 2] :=
  ⟨(distances_symm [1, 2] [3, 4] rfl).1,
   (distances_symm [1, 2] [3, 4] rfl).2 (by norm_num [dot]) (by norm_num [dot])⟩

/-- Counterexample to claim C7 as stated: at the zero vector `[0]`,
`normalized_scalar_product [0] [0]` is a division by zero (modelled `none`),
not the distance `0`. -/
theorem distances_identity_fails :
    ¬ (euklidean_distance [(0:ℚ)] [(0:ℚ)] = 0 ∧
       normalized_scalar_product [(0:ℚ)] [(0:ℚ)] = some 0) := by
  rintro ⟨-, h⟩
  rw [normalized_scalar_product, if_pos (by norm_num [dot])] at h
  exact Option.noConfusion h

/-- Claim C7, amended: `euklidean_distance a a = 0` for every vector `a`, and
`normalized_scalar_product a a = 0` for every vector `a` of nonzero norm. -/
theorem distances_identity (a : List ℚ) :
    euklidean_distance a a = 0 ∧
      (dot a a ≠ 0 → normalized_scalar_product a a = some 0) := by
  refine ⟨?_, fun h => ?_⟩
  · rw [euklidean_distance, zipWith_sub_self_sum]
    simp
  · have hpos : 0 < dot a a := lt_of_le_of_ne (dot_self_nonneg a) (Ne.symm h)
    rw [normalized_scalar_product, if_neg (mul_ne_zero h h)]
    have hc : ((dot a a * dot a a : ℚ) : ℝ) = (dot a a : ℝ) * (dot a a : ℝ) := by
      push_cast
      ring
    have hcast : (0 : ℝ) ≤ (dot a a : ℝ) := by exact_mod_cast hpos.le
    rw [hc, Real.sqrt_mul_self hcast,
      div_self (show (dot a a : ℝ) ≠ 0 by exact_mod_cast h)]
    norm_num

/-- Witness for the amended claim C7 at `a = [1, 2]`. -/
theorem distances_identity_witness :
    euklidean_distance [1, 2] [1, 2] = 0 ∧
      normalized_scalar_product [1, 2] [1, 2] = some 0 :=
  ⟨(distances_identity [1, 2]).1,
   (distances_identity [1, 2]).2 (by norm_num [dot])⟩

/-- Claim C8: for same-length histograms with non-negative entries,
`chi_square h1 h2` is non-negative. -/
theorem chi_square_nonneg (h1 h2 : List ℚ) (hlen : h1.length = h2.length)
    (hn1 : ∀ q ∈ h1, 0 ≤ q) (hn2 : ∀ q ∈ h2, 0 ≤ q) :
    0 ≤ chi_square h1 h2 := by
  rw [chi_square_eq_sum]
  refine Finset.sum_nonneg fun i _ => ?_
  by_cases hg : h1.getD i 0 ≠ h2.getD i 0
  · rw [if_pos hg]
    exact div_nonneg (sq_nonneg _)
      (add_nonneg (getD_nonneg hn1 i) (getD_nonneg hn2 i))
  · rw [if_neg hg]

/-- Witness for claim C8 at `h1 = [1, 2]`, `h2 = [2, 2]`. -/
theorem chi_square_nonneg_witness : 0 ≤ chi_square [1, 2] [2, 2] :=
  chi_square_nonneg [1, 2] [2, 2] rfl (by decide) (by decide)

/-- Claim C9: `euklidean_distance` is always non-negative, and for
equal-length vectors of nonzero norm `normalized_scalar_product` returns a
non-negative value, by the Cauchy-Schwarz inequality. -/
theorem distances_nonneg (x1 x2 : List ℚ) (hlen : x1.length = x2.length) :
    0 ≤ euklidean_distance x1 x2 ∧
      (dot x1 x1 ≠ 0 → dot x2 x2 ≠ 0 →
        ∃ r : ℝ, normalized_scalar_product x1 x2 = some r ∧ 0 ≤ r) := by
  refine ⟨Real.sqrt_nonneg _, fun h1 h2 => ?_⟩
  have hp1 : 0 < dot x1 x1 := lt_of_le_of_ne (dot_self_nonneg x1) (Ne.symm h1)
  have hp2 : 0 < dot x2 x2 := lt_of_le_of_ne (dot_self_nonneg x2) (Ne.symm h2)
  have hprod : 0 < dot x1 x1 * dot x2 x2 := mul_pos hp1 hp2
  have hDpos : 0 < Real.sqrt ((dot x1 x1 * dot x2 x2 : ℚ)) :=
    Real.sqrt_pos.mpr (by exact_mod_cast hprod)
  have hcs : (dot x1 x2 : ℝ) ≤ Real.sqrt ((dot x1 x1 * dot x2 x2 : ℚ)) := by
    have h3 : ((dot x1 x2 : ℝ) ^ 2) ≤ ((dot x1 x1 * dot x2 x2 : ℚ) : ℝ) := by
      exact_mod_cast dot_sq_le x1 x2 hlen
    calc (dot x1 x2 : ℝ) ≤ |(dot x1 x2 : ℝ)| := le_abs_self _
      _ = Real.sqrt ((dot x1 x2 : ℝ) ^ 2) := (Real.sqrt_sq_eq_abs _).symm
      _ ≤ Real.sqrt ((dot x1 x1 * dot x2 x2 : ℚ)) := Real.sqrt_le_sqrt h3
  refine ⟨1 - (dot x1 x2 : ℝ) / Real.sqrt ((dot x1 x1 * dot x2 x2 : ℚ)), ?_, ?_⟩
  · rw [normalized_scalar_product, if_neg hprod.ne']
  · have hle : (dot x1 x2 : ℝ) / Real.sqrt ((dot x1 x1 * dot x2 x2 : ℚ)) ≤ 1 :=
      (div_le_one hDpos).mpr hcs
    linarith

/-- Witness for claim C9 at `x1 = [1, 0]`, `x2 = [0, 1]`. -/
theorem distances_nonneg_witness :
    0 ≤ euklidean_distance [1, 0] [0, 1] ∧
      ∃ r : ℝ, normalized_scalar_product [1, 0] [0, 1] = some r ∧ 0 ≤ r :=
  ⟨(distances_nonneg [1, 0] [0, 1] rfl).1,
   (distances_nonneg [1, 0] [0, 1] rfl).2 (by norm_num [dot]) (by norm_num [dot])⟩

/-- Claim C10: `chi_square h h = 0` for every histogram `h`, including the
all-zero histogram: the guard `h1[i] != h2[i]` never fires, so the
accumulator is returned at its initial value `0`. -/
theorem chi_square_self (h : List ℚ) : chi_square h h = 0 := by
  rw [chi_square_eq_sum]
  simp

end BobMath
